import Mathlib

/-!
# rwlocks: the instrumented reader-writer lock of `main.go`

A shallow embedding of the two core types of `main.go`:

* `queue` (lines 12-41): the membership tracker, an ordered sequence of names
  guarded by its own `sync.Mutex`;
* `rwLock` (lines 43-96): two trackers (`wait`, `held`) around an embedded
  `sync.RWMutex`.

Every `queue` method holds the tracker mutex for its whole body, so each method
is one atomic transition on the item sequence; the embedding therefore keeps
the items and leaves the guard implicit.  The methods of `rwLock` are *not*
atomic: they are sequences of tracker transitions and primitive transitions,
and the second half of the file interleaves them thread by thread.
-/

namespace RWLocks

/-! ## The membership tracker -/

/-- The tracker `queue` of `main.go`: the slice `items`. -/
structure queue where
  items : List String
deriving DecidableEq

/-- The zero value of `queue`, as produced by `&rwLock{}`. -/
def queue.new : queue := { items := [] }

/-- Method `queue.add`: `q.items = append(q.items, s)`. -/
def queue.add (q : queue) (s : String) : queue :=
  { items := q.items ++ [s] }

/-- Loop body of `queue.remove`: `if item != s { cp = append(cp, item) }`. -/
def queue.removeBody (s : String) (cp : List String) (item : String) : List String :=
  if item != s then cp ++ [item] else cp

/-- Method `queue.remove`: starting from the nil slice `cp`, range over
`q.items`, keep the items different from `s`, then store `cp` back. -/
def queue.remove (q : queue) (s : String) : queue :=
  { items := q.items.foldl (queue.removeBody s) [] }

/-- Go's `strings.Join(elems, sep)`: the elements concatenated with `sep`
between consecutive ones, the empty string for no element. -/
def stringsJoin (elems : List String) (sep : String) : String :=
  match elems with
  | [] => ""
  | first :: rest => rest.foldl (fun b s => b ++ sep ++ s) first

/-- The rendering the specification asks of a tracker: the members in order,
a comma and a space between neighbours, nothing around a single member and the
empty text for no member. -/
def commaSpaceJoined : List String → String
  | [] => ""
  | [a] => a
  | a :: b :: rest => a ++ ", " ++ commaSpaceJoined (b :: rest)

/-- Method `queue.toString`: returns `strings.Join(q.items, ", ")`; the
receiver is passed back so that the effect on the tracker is explicit. -/
def queue.toString (q : queue) : String × queue :=
  (stringsJoin q.items ", ", q)

/-- A run of `queue.add` calls, one per name, in list order. -/
def queue.addAll (q : queue) (names : List String) : queue :=
  names.foldl queue.add q

/-! ## The underlying primitive -/

/-- Modelled from the spec: Go's `sync.RWMutex`, which `main.go` embeds in
`rwLock` and whose code is not part of the repository.  Section 4.2 fixes its
behaviour: any number of concurrent shared holders, at most one exclusive
holder, an exclusive request waits for every shared holder.  The state is the
number of shared holders and whether an exclusive holder exists. -/
structure RWMutex where
  readers : Nat
  writer : Bool
deriving DecidableEq

/-- The zero value of `sync.RWMutex`: unlocked. -/
def RWMutex.new : RWMutex := { readers := 0, writer := false }

/-- Modelled from the spec: `RWMutex.RLock` is granted when no exclusive holder
exists; `none` stands for a call that stays blocked in this state.  Whether a
shared request may overtake a queued exclusive one is left open by section 4.2;
here it may, so every run of a primitive that makes shared requests queue is
also a run of this one. -/
def RWMutex.RLock (m : RWMutex) : Option RWMutex :=
  if m.writer then none else some { m with readers := m.readers + 1 }

/-- Modelled from the spec: `RWMutex.Lock` is granted when there is neither an
exclusive nor a shared holder; `none` stands for a blocked call. -/
def RWMutex.Lock (m : RWMutex) : Option RWMutex :=
  if m.writer || m.readers != 0 then none else some { m with writer := true }

/-- Modelled from the spec: `RWMutex.RUnlock` gives one shared hold back;
`none` is the fatal error of unlocking a mutex nobody holds in shared mode. -/
def RWMutex.RUnlock (m : RWMutex) : Option RWMutex :=
  if m.readers = 0 then none else some { m with readers := m.readers - 1 }

/-- Modelled from the spec: `RWMutex.Unlock` gives the exclusive hold back;
`none` is the fatal error of unlocking a mutex nobody holds exclusively. -/
def RWMutex.Unlock (m : RWMutex) : Option RWMutex :=
  if m.writer then some { m with writer := false } else none

/-! ## The instrumented lock, call by call -/

/-- The type `rwLock` of `main.go`: trackers `wait` and `held` and the embedded
`sync.RWMutex`. -/
structure rwLock where
  wait : queue
  held : queue
  RWMutex : RWMutex
deriving DecidableEq

/-- The value `&rwLock{}` the examples start from. -/
def rwLock.new : rwLock := { wait := queue.new, held := queue.new, RWMutex := RWMutex.new }

/-- First statement of `RLock` and of `Lock`: `r.wait.add(name)`. -/
def rwLock.waitAdd (r : rwLock) (name : String) : rwLock :=
  { r with wait := r.wait.add name }

/-- Statement `r.held.add(name)` of `RLock` and of `Lock`. -/
def rwLock.heldAdd (r : rwLock) (name : String) : rwLock :=
  { r with held := r.held.add name }

/-- Statement `r.wait.remove(name)` of `RLock` and of `Lock`. -/
def rwLock.waitRemove (r : rwLock) (name : String) : rwLock :=
  { r with wait := r.wait.remove name }

/-- Statement `r.held.remove(name)` of `RUnlock` and of `Unlock`. -/
def rwLock.heldRemove (r : rwLock) (name : String) : rwLock :=
  { r with held := r.held.remove name }

/-- Statement `r.RWMutex.RLock()`. -/
def rwLock.primRLock (r : rwLock) : Option rwLock :=
  r.RWMutex.RLock.map fun m => { r with RWMutex := m }

/-- Statement `r.RWMutex.Lock()`. -/
def rwLock.primLock (r : rwLock) : Option rwLock :=
  r.RWMutex.Lock.map fun m => { r with RWMutex := m }

/-- Statement `r.RWMutex.RUnlock()`. -/
def rwLock.primRUnlock (r : rwLock) : Option rwLock :=
  r.RWMutex.RUnlock.map fun m => { r with RWMutex := m }

/-- Statement `r.RWMutex.Unlock()`. -/
def rwLock.primUnlock (r : rwLock) : Option rwLock :=
  r.RWMutex.Unlock.map fun m => { r with RWMutex := m }

/-- Method `rwLock.RLock` run without interruption: add to `wait`, take the
primitive in shared mode, add to `held`, remove from `wait`. -/
def rwLock.RLock (r : rwLock) (name : String) : Option rwLock :=
  (r.waitAdd name).primRLock.map fun r1 => (r1.heldAdd name).waitRemove name

/-- Method `rwLock.Lock` run without interruption: add to `wait`, take the
primitive in exclusive mode, add to `held`, remove from `wait`. -/
def rwLock.Lock (r : rwLock) (name : String) : Option rwLock :=
  (r.waitAdd name).primLock.map fun r1 => (r1.heldAdd name).waitRemove name

/-- Method `rwLock.RUnlock` run without interruption: release the primitive,
then remove from `held`. -/
def rwLock.RUnlock (r : rwLock) (name : String) : Option rwLock :=
  r.primRUnlock.map fun r1 => r1.heldRemove name

/-- Method `rwLock.Unlock` run without interruption: release the primitive,
then remove from `held`. -/
def rwLock.Unlock (r : rwLock) (name : String) : Option rwLock :=
  r.primUnlock.map fun r1 => r1.heldRemove name

/-- Method `rwLock.holding`: `r.held.toString()`. -/
def rwLock.holding (r : rwLock) : String × rwLock :=
  ((r.held.toString).1, { r with held := (r.held.toString).2 })

/-- Method `rwLock.waiting`: `r.wait.toString()`. -/
def rwLock.waiting (r : rwLock) : String × rwLock :=
  ((r.wait.toString).1, { r with wait := (r.wait.toString).2 })

/-! ## Interleaved execution

A participant is one goroutine running `read` or `write` of `main.go`: it calls
the acquire method of its mode under its own name and later the matching
release.  Each statement of those methods is one atomic step; the program
counter records the statement a participant executes next. -/

/-- Mode of a participant: `read` uses `RLock`/`RUnlock`, `write` uses
`Lock`/`Unlock`. -/
inductive Mode where
  | shared
  | exclusive
deriving DecidableEq

/-- Program counter of a participant, named after what it has done so far.
* `idle`: no call in progress; next is `r.wait.add(name)`;
* `requested`: in `wait`; next is the primitive's acquire, which may block;
* `granted`: the primitive is taken; next is `r.held.add(name)`;
* `added`: in `held`; next is `r.wait.remove(name)`;
* `holding`: the acquire call has returned; next is the primitive's release;
* `released`: the primitive is given back; next is `r.held.remove(name)`,
  after which the participant is `idle` again. -/
inductive PC where
  | idle
  | requested
  | granted
  | added
  | holding
  | released
deriving DecidableEq

/-- A participant: the name it passes to every call, its mode, its program
counter. -/
structure Thread where
  name : String
  mode : Mode
  pc : PC
deriving DecidableEq

/-- A global state: the shared lock and the participants. -/
structure State where
  lock : rwLock
  threads : List Thread
deriving DecidableEq

/-- The primitive's acquire of a mode. -/
def rwLock.primAcquire (r : rwLock) : Mode → Option rwLock
  | .shared => r.primRLock
  | .exclusive => r.primLock

/-- The primitive's release of a mode. -/
def rwLock.primRelease (r : rwLock) : Mode → Option rwLock
  | .shared => r.primRUnlock
  | .exclusive => r.primUnlock

/-- One statement of participant `t` on lock `r`; `none` when the statement
cannot complete in this state (a blocked acquire, a fatal release). -/
def stepThread (r : rwLock) (t : Thread) : Option (rwLock × Thread) :=
  match t.pc with
  | .idle => some (r.waitAdd t.name, { t with pc := .requested })
  | .requested => (r.primAcquire t.mode).map fun r1 => (r1, { t with pc := .granted })
  | .granted => some (r.heldAdd t.name, { t with pc := .added })
  | .added => some (r.waitRemove t.name, { t with pc := .holding })
  | .holding => (r.primRelease t.mode).map fun r1 => (r1, { t with pc := .released })
  | .released => some (r.heldRemove t.name, { t with pc := .idle })

/-- The scheduler lets participant number `i` execute its next statement. -/
def step (s : State) (i : Nat) : Option State :=
  match s.threads[i]? with
  | none => none
  | some t => (stepThread s.lock t).map fun p => { lock := p.1, threads := s.threads.set i p.2 }

/-- A schedule is the list of participant numbers in the order they move. -/
def run (s : State) : List Nat → Option State
  | [] => some s
  | i :: rest => (step s i).bind fun s1 => run s1 rest

/-- Initial state: a fresh lock and every participant idle. -/
def init (ps : List (String × Mode)) : State :=
  { lock := rwLock.new, threads := ps.map fun p => { name := p.1, mode := p.2, pc := .idle } }

/-- The observer `prompt` of `main.go` (lines 134 and 136): it reads
`mutex.holding()`, then `mutex.waiting()`.  The two reads are separate calls,
each atomic on its own tracker, so participants may move between them:
`between` is the schedule they follow after the first read and before the
second.  The result is the two strings handed to `Printf`, `holding` first,
and the state after the second read. -/
def prompt (s : State) (between : List Nat) : Option (String × String × State) :=
  (run { s with lock := (s.lock.holding).2 } between).map fun s1 =>
    ((s.lock.holding).1, (s1.lock.waiting).1, { s1 with lock := (s1.lock.waiting).2 })

/-- The participant owns the primitive: granted and not yet released. -/
def PC.holdsPrimitive : PC → Bool
  | .granted | .added | .holding => true
  | _ => false

/-- The acquire call has executed its first statement and the matching release
has not started. -/
def PC.inFlight : PC → Bool
  | .requested | .granted | .added | .holding => true
  | _ => false

/-- Program counters at which the participant has added its name to `wait` and
not yet removed it. -/
def PC.inWait : PC → Bool
  | .requested | .granted | .added => true
  | _ => false

/-- Program counters at which the participant has added its name to `held` and
not yet removed it. -/
def PC.inHeld : PC → Bool
  | .added | .holding | .released => true
  | _ => false

/-! ## Predicates on global states -/

/-- The names of the participants, in participant order. -/
def State.names (s : State) : List String :=
  s.threads.map Thread.name

/-- For each participant, its mode and whether it owns the primitive. -/
def State.holders (s : State) : List (Mode × Bool) :=
  s.threads.map fun t => (t.mode, t.pc.holdsPrimitive)

/-- Position `i` carries a name no other position carries. -/
def UniqueAt (names : List String) (i : Nat) : Prop :=
  ∀ j n m, names[i]? = some n → names[j]? = some m → j ≠ i → m ≠ n

/-- The trackers agree with the program counter of participant `i`: its name
is in `wait` exactly between its `wait.add` and its `wait.remove`, and in
`held` exactly between its `held.add` and its `held.remove`. -/
def Tracked (s : State) (i : Nat) : Prop :=
  ∀ t, s.threads[i]? = some t →
    (t.name ∈ s.lock.wait.items ↔ t.pc.inWait = true)
    ∧ (t.name ∈ s.lock.held.items ↔ t.pc.inHeld = true)

/-- Every name in a tracker is the name of a participant. -/
def Owned (s : State) : Prop :=
  ∀ n, n ∈ s.lock.wait.items ∨ n ∈ s.lock.held.items → n ∈ s.names

/-- The primitive is taken in the given mode. -/
def RWMutex.heldIn (m : RWMutex) : Mode → Prop
  | .shared => 0 < m.readers
  | .exclusive => m.writer = true

/-- The primitive's state counts the participants that own it: `readers` is
the number of shared owners, `writer` tells whether there is an exclusive
owner, there is at most one, and then there is no shared owner. -/
def MutexInv (m : RWMutex) (v : List (Mode × Bool)) : Prop :=
  m.readers = v.count (Mode.shared, true)
  ∧ v.count (Mode.exclusive, true) = (if m.writer = true then 1 else 0)
  ∧ (m.writer = true → m.readers = 0)

/-! ## Postconditions of the uninterrupted calls -/

/-- What a completed acquire leaves behind, given the lock before the call,
the name and the primitive state granted. -/
def AcquirePost (r r' : rwLock) (name : String) (m : RWMutex) : Prop :=
  r'.held.items = r.held.items ++ [name]
  ∧ r'.wait.items = r.wait.items.filter (fun x => x != name)
  ∧ r'.RWMutex = m
  ∧ name ∈ r'.held.items
  ∧ name ∉ r'.wait.items

/-- What a completed release leaves behind. -/
def ReleasePost (r r' : rwLock) (name : String) (m : RWMutex) : Prop :=
  r'.held.items = r.held.items.filter (fun x => x != name)
  ∧ name ∉ r'.held.items
  ∧ (∀ y, y ≠ name → r'.held.items.count y = r.held.items.count y)
  ∧ r'.held.items.Sublist r.held.items
  ∧ r'.wait = r.wait
  ∧ r'.RWMutex = m

/-! ## Tracker lemmas -/

theorem foldl_removeBody (s : String) (xs acc : List String) :
    xs.foldl (queue.removeBody s) acc = acc ++ xs.filter (fun x => x != s) := by
  induction xs generalizing acc with
  | nil => simp
  | cons x xs ih =>
    by_cases hx : x = s
    · simp [List.foldl_cons, ih, queue.removeBody, hx]
    · simp [List.foldl_cons, ih, queue.removeBody, hx]

theorem remove_items (q : queue) (s : String) :
    (q.remove s).items = q.items.filter (fun x => x != s) := by
  simp [queue.remove, foldl_removeBody]

theorem mem_remove_items (q : queue) (s n : String) :
    n ∈ (q.remove s).items ↔ n ∈ q.items ∧ n ≠ s := by
  simp [remove_items]

theorem not_mem_remove_items (q : queue) (s : String) : s ∉ (q.remove s).items := by
  simp [remove_items]

theorem count_remove_items (q : queue) (s : String) :
    ∀ y, y ≠ s → (q.remove s).items.count y = q.items.count y := by
  intro y hy
  rw [remove_items]
  exact List.count_filter (by simpa using hy)

theorem remove_items_sublist (q : queue) (s : String) :
    (q.remove s).items.Sublist q.items := by
  rw [remove_items]
  exact List.filter_sublist _

theorem remove_absent (q : queue) (s : String) (hs : s ∉ q.items) : q.remove s = q := by
  have h : (q.remove s).items = q.items := by
    rw [remove_items, List.filter_eq_self]
    intro a ha
    have : a ≠ s := fun e => hs (e ▸ ha)
    simpa using this
  cases q
  simp only [queue.remove] at h ⊢
  simp [h]

theorem mem_add_items (q : queue) (s n : String) :
    n ∈ (q.add s).items ↔ n ∈ q.items ∨ n = s := by
  simp [queue.add]

theorem addAll_items (names : List String) (q : queue) :
    (q.addAll names).items = q.items ++ names := by
  induction names generalizing q with
  | nil => simp [queue.addAll]
  | cons n ns ih =>
    have h := ih (q.add n)
    simp only [queue.addAll] at h
    simp only [queue.addAll, List.foldl_cons, h]
    simp [queue.add]

theorem foldl_join_append (sep : String) (rest : List String) (a b : String) :
    rest.foldl (fun b s => b ++ sep ++ s) (a ++ b) =
      a ++ rest.foldl (fun b s => b ++ sep ++ s) b := by
  induction rest generalizing b with
  | nil => simp
  | cons x xs ih =>
    simp only [List.foldl_cons]
    rw [String.append_assoc, String.append_assoc, ← String.append_assoc b, ih]

theorem stringsJoin_eq_commaSpaceJoined (xs : List String) :
    stringsJoin xs ", " = commaSpaceJoined xs := by
  induction xs with
  | nil => rfl
  | cons a rest ih =>
    cases rest with
    | nil => rfl
    | cons b rest =>
      have h : stringsJoin (b :: rest) ", " = commaSpaceJoined (b :: rest) := ih
      simp only [stringsJoin] at h
      simp only [stringsJoin, commaSpaceJoined, List.foldl_cons]
      rw [String.append_assoc, foldl_join_append, foldl_join_append, h, String.append_assoc]

/-! ## Claims about the tracker -/

/-- C5: `queue.remove(s)` keeps exactly the items different from `s`, in their
original order: every occurrence of `s` goes, every other item keeps its
multiplicity and relative position, and a tracker without `s` is unchanged. -/
theorem queue_remove_keeps_others (q : queue) (s : String) :
    (q.remove s).items = q.items.filter (fun x => x != s)
    ∧ s ∉ (q.remove s).items
    ∧ (∀ y, y ≠ s → (q.remove s).items.count y = q.items.count y)
    ∧ (q.remove s).items.Sublist q.items
    ∧ (s ∉ q.items → q.remove s = q) :=
  ⟨remove_items q s, not_mem_remove_items q s, count_remove_items q s,
    remove_items_sublist q s, remove_absent q s⟩

/-- Check of C5 on a tracker with two occurrences of the removed name and on a
tracker without it. -/
theorem queue_remove_keeps_others_witness :
    (queue.mk ["read1", "write1", "read1", "read2"]).remove "read1"
        = queue.mk ["write1", "read2"]
    ∧ (queue.mk ["write1", "read2"]).remove "read1" = queue.mk ["write1", "read2"] :=
  ⟨by
    have h := (queue_remove_keeps_others
      (queue.mk ["read1", "write1", "read1", "read2"]) "read1").1
    exact congrArg queue.mk (h.trans (by decide)),
   (queue_remove_keeps_others (queue.mk ["write1", "read2"]) "read1").2.2.2.2 (by decide)⟩

/-- C6: after `add(n1)`, ..., `add(nk)` on a new tracker the items are
`n1..nk` in call order (duplicates kept) and `toString` renders them joined by
a comma and a space; a new tracker, and so both snapshots of a new lock, render
as the empty string. -/
theorem queue_addAll_toString (names : List String) :
    (queue.new.addAll names).items = names
    ∧ ((queue.new.addAll names).toString).1 = commaSpaceJoined names
    ∧ ((queue.new.addAll []).toString).1 = ""
    ∧ (rwLock.new.holding).1 = ""
    ∧ (rwLock.new.waiting).1 = "" := by
  have h : (queue.new.addAll names).items = names := by
    simp [addAll_items, queue.new]
  refine ⟨h, ?_, rfl, rfl, rfl⟩
  simp [queue.toString, h, stringsJoin_eq_commaSpaceJoined]

/-- Check of C6 on three calls, two of them with the same name. -/
theorem queue_addAll_toString_witness :
    ((queue.new.addAll ["read1", "read2", "read1"]).toString).1 = "read1, read2, read1" :=
  (queue_addAll_toString ["read1", "read2", "read1"]).2.1.trans (by decide)

/-- C7: `add(x)` then `remove(x)` on the empty tracker renders as the empty
string, and on any tracker that does not contain `x` it gives the tracker, and
so the rendering, back unchanged. -/
theorem queue_add_remove_roundtrip (x : String) :
    (((queue.new.add x).remove x).toString).1 = ""
    ∧ ∀ q : queue, x ∉ q.items →
        (q.add x).remove x = q
        ∧ (((q.add x).remove x).toString).1 = (q.toString).1 := by
  have key : ∀ q : queue, x ∉ q.items → (q.add x).remove x = q := by
    intro q hx
    have h : ((q.add x).remove x).items = q.items := by
      rw [remove_items]
      simp only [queue.add, List.filter_append]
      have h1 : List.filter (fun y => y != x) q.items = q.items := by
        rw [List.filter_eq_self]
        intro a ha
        have : a ≠ x := fun e => hx (e ▸ ha)
        simpa using this
      simp [h1]
    cases q
    simp only [queue.remove, queue.add] at h ⊢
    simp [h]
  refine ⟨?_, fun q hx => ⟨key q hx, by rw [key q hx]⟩⟩
  rw [key queue.new (by simp [queue.new])]
  rfl

/-- Check of C7 on the tracker `read1, read2` and the name `write1`. -/
theorem queue_add_remove_roundtrip_witness :
    "write1" ∉ (queue.mk ["read1", "read2"]).items
    ∧ (((queue.mk ["read1", "read2"]).add "write1").remove "write1").toString.1
        = "read1, read2" :=
  ⟨by decide,
   ((queue_add_remove_roundtrip "write1").2 (queue.mk ["read1", "read2"]) (by decide)).2.trans
     (by decide)⟩

/-! ## Claims about one uninterrupted call -/

theorem acquirePost_of (r : rwLock) (name : String) (m : RWMutex) :
    AcquirePost r
      ((({ (r.waitAdd name) with RWMutex := m } : rwLock).heldAdd name).waitRemove name) name m := by
  refine ⟨?_, ?_, rfl, ?_, ?_⟩
  · simp [rwLock.waitRemove, rwLock.heldAdd, rwLock.waitAdd, queue.add]
  · simp [rwLock.waitRemove, rwLock.heldAdd, rwLock.waitAdd, remove_items, queue.add,
      List.filter_append]
  · simp [rwLock.waitRemove, rwLock.heldAdd, rwLock.waitAdd, queue.add]
  · simp [rwLock.waitRemove, rwLock.heldAdd, rwLock.waitAdd, remove_items]

theorem releasePost_of (r : rwLock) (name : String) (m : RWMutex) :
    ReleasePost r (({ r with RWMutex := m } : rwLock).heldRemove name) name m := by
  exact ⟨remove_items r.held name, not_mem_remove_items r.held name,
    count_remove_items r.held name, remove_items_sublist r.held name, rfl, rfl⟩

/-- C8: when the primitive grants at once, a completed `RLock(name)` or
`Lock(name)` returns with `held` equal to the old sequence followed by `name`
and `wait` equal to the old sequence without any occurrence of `name`, so the
name is in `held` and not in `wait`. -/
theorem rwLock_acquire_moves_name (r : rwLock) (name : String) :
    (∀ m, r.RWMutex.RLock = some m → ∃ r', r.RLock name = some r' ∧ AcquirePost r r' name m)
    ∧ (∀ m, r.RWMutex.Lock = some m → ∃ r', r.Lock name = some r' ∧ AcquirePost r r' name m) := by
  constructor
  · intro m hm
    have h1 : (r.waitAdd name).RWMutex.RLock = some m := hm
    exact ⟨_, by simp only [rwLock.RLock, rwLock.primRLock, h1, Option.map_some'],
      acquirePost_of r name m⟩
  · intro m hm
    have h1 : (r.waitAdd name).RWMutex.Lock = some m := hm
    exact ⟨_, by simp only [rwLock.Lock, rwLock.primLock, h1, Option.map_some'],
      acquirePost_of r name m⟩

/-- Check of C8: `read3` acquires shared access next to holder `read1`, and
`write1` acquires exclusive access on a free lock where its name is queued. -/
theorem rwLock_acquire_moves_name_witness :
    (∃ r', (rwLock.mk ⟨["write1"]⟩ ⟨["read1"]⟩ ⟨1, false⟩).RLock "read3" = some r'
        ∧ AcquirePost (rwLock.mk ⟨["write1"]⟩ ⟨["read1"]⟩ ⟨1, false⟩) r' "read3" ⟨2, false⟩)
    ∧ (∃ r', (rwLock.mk ⟨["read3"]⟩ ⟨[]⟩ ⟨0, false⟩).Lock "write1" = some r'
        ∧ AcquirePost (rwLock.mk ⟨["read3"]⟩ ⟨[]⟩ ⟨0, false⟩) r' "write1" ⟨0, true⟩) :=
  ⟨(rwLock_acquire_moves_name (rwLock.mk ⟨["write1"]⟩ ⟨["read1"]⟩ ⟨1, false⟩) "read3").1
      ⟨2, false⟩ (by decide),
   (rwLock_acquire_moves_name (rwLock.mk ⟨["read3"]⟩ ⟨[]⟩ ⟨0, false⟩) "write1").2
      ⟨0, true⟩ (by decide)⟩

/-- C9: when the caller holds the primitive, `RUnlock(name)` and
`Unlock(name)` return with `name` gone from `held`, every other name of `held`
kept with its multiplicity and order, and `wait` untouched. -/
theorem rwLock_release_frame (r : rwLock) (name : String) :
    (∀ m, r.RWMutex.RUnlock = some m →
      ∃ r', r.RUnlock name = some r' ∧ ReleasePost r r' name m)
    ∧ (∀ m, r.RWMutex.Unlock = some m →
      ∃ r', r.Unlock name = some r' ∧ ReleasePost r r' name m) := by
  constructor
  · intro m hm
    exact ⟨_, by simp only [rwLock.RUnlock, rwLock.primRUnlock, hm, Option.map_some'],
      releasePost_of r name m⟩
  · intro m hm
    exact ⟨_, by simp only [rwLock.Unlock, rwLock.primUnlock, hm, Option.map_some'],
      releasePost_of r name m⟩

/-- Check of C9: `read1` releases next to `read2` with `write1` waiting, and
`write1` releases its exclusive hold with `read3` waiting. -/
theorem rwLock_release_frame_witness :
    (rwLock.mk ⟨["write1"]⟩ ⟨["read1", "read2"]⟩ ⟨2, false⟩).RUnlock "read1"
        = some (rwLock.mk ⟨["write1"]⟩ ⟨["read2"]⟩ ⟨1, false⟩)
    ∧ (∃ r', (rwLock.mk ⟨["write1"]⟩ ⟨["read1", "read2"]⟩ ⟨2, false⟩).RUnlock "read1" = some r'
        ∧ ReleasePost (rwLock.mk ⟨["write1"]⟩ ⟨["read1", "read2"]⟩ ⟨2, false⟩) r' "read1"
            ⟨1, false⟩)
    ∧ (∃ r', (rwLock.mk ⟨["read3"]⟩ ⟨["write1"]⟩ ⟨0, true⟩).Unlock "write1" = some r'
        ∧ ReleasePost (rwLock.mk ⟨["read3"]⟩ ⟨["write1"]⟩ ⟨0, true⟩) r' "write1" ⟨0, false⟩) :=
  ⟨by decide,
   (rwLock_release_frame (rwLock.mk ⟨["write1"]⟩ ⟨["read1", "read2"]⟩ ⟨2, false⟩) "read1").1
      ⟨1, false⟩ (by decide),
   (rwLock_release_frame (rwLock.mk ⟨["read3"]⟩ ⟨["write1"]⟩ ⟨0, true⟩) "write1").2
      ⟨0, false⟩ (by decide)⟩

/-- C10: `holding()` leaves the lock as it found it, so a second call right
after the first returns the same string; likewise `waiting()`. -/
theorem rwLock_snapshot_idempotent (r : rwLock) :
    (r.holding).2 = r
    ∧ ((r.holding).2.holding).1 = (r.holding).1
    ∧ (r.waiting).2 = r
    ∧ ((r.waiting).2.waiting).1 = (r.waiting).1 :=
  ⟨rfl, rfl, rfl, rfl⟩

/-- Check of C10 on a lock with two holders and one waiter. -/
theorem rwLock_snapshot_idempotent_witness :
    ((rwLock.mk ⟨["write1"]⟩ ⟨["read1", "read2"]⟩ ⟨2, false⟩).holding).1 = "read1, read2"
    ∧ (((rwLock.mk ⟨["write1"]⟩ ⟨["read1", "read2"]⟩ ⟨2, false⟩).holding).2.holding).1
        = "read1, read2"
    ∧ ((rwLock.mk ⟨["write1"]⟩ ⟨["read1", "read2"]⟩ ⟨2, false⟩).waiting).1 = "write1" :=
  ⟨by decide,
   (rwLock_snapshot_idempotent (rwLock.mk ⟨["write1"]⟩ ⟨["read1", "read2"]⟩ ⟨2, false⟩)).2.1.trans
     (by decide),
   by decide⟩

/-! ## One step of the interleaving -/

theorem step_eq_some {s s' : State} {i : Nat} (h : step s i = some s') :
    ∃ t r' t', s.threads[i]? = some t ∧ stepThread s.lock t = some (r', t')
      ∧ s' = { lock := r', threads := s.threads.set i t' } := by
  unfold step at h
  cases ht : s.threads[i]? with
  | none => simp [ht] at h
  | some t =>
    simp only [ht, Option.map_eq_some'] at h
    obtain ⟨⟨r', t'⟩, h1, h2⟩ := h
    exact ⟨t, r', t', rfl, h1, h2.symm⟩

theorem primAcquire_trackers {r r' : rwLock} {m : Mode} (h : r.primAcquire m = some r') :
    r'.wait = r.wait ∧ r'.held = r.held := by
  cases m <;>
    simp only [rwLock.primAcquire, rwLock.primRLock, rwLock.primLock, Option.map_eq_some'] at h <;>
    obtain ⟨_, _, rfl⟩ := h <;> exact ⟨rfl, rfl⟩

theorem primRelease_trackers {r r' : rwLock} {m : Mode} (h : r.primRelease m = some r') :
    r'.wait = r.wait ∧ r'.held = r.held := by
  cases m <;>
    simp only [rwLock.primRelease, rwLock.primRUnlock, rwLock.primUnlock,
      Option.map_eq_some'] at h <;>
    obtain ⟨_, _, rfl⟩ := h <;> exact ⟨rfl, rfl⟩

/-- A step changes neither the name nor the mode of the participant that moves. -/
theorem stepThread_static {r r' : rwLock} {t t' : Thread}
    (h : stepThread r t = some (r', t')) : t'.name = t.name ∧ t'.mode = t.mode := by
  obtain ⟨n, m, pc⟩ := t
  cases pc <;> simp only [stepThread, Option.some.injEq, Prod.mk.injEq, Option.map_eq_some'] at h
  · obtain ⟨_, rfl⟩ := h; exact ⟨rfl, rfl⟩
  · obtain ⟨_, _, _, rfl⟩ := h; exact ⟨rfl, rfl⟩
  · obtain ⟨_, rfl⟩ := h; exact ⟨rfl, rfl⟩
  · obtain ⟨_, rfl⟩ := h; exact ⟨rfl, rfl⟩
  · obtain ⟨_, _, _, rfl⟩ := h; exact ⟨rfl, rfl⟩
  · obtain ⟨_, rfl⟩ := h; exact ⟨rfl, rfl⟩

/-- A step touches the trackers only at the name of the participant that moves. -/
theorem stepThread_other {r r' : rwLock} {t t' : Thread} {n : String}
    (h : stepThread r t = some (r', t')) (hn : n ≠ t.name) :
    (n ∈ r'.wait.items ↔ n ∈ r.wait.items) ∧ (n ∈ r'.held.items ↔ n ∈ r.held.items) := by
  obtain ⟨nm, m, pc⟩ := t
  simp only at hn
  cases pc <;> simp only [stepThread, Option.some.injEq, Prod.mk.injEq, Option.map_eq_some'] at h
  · obtain ⟨rfl, _⟩ := h
    simp [rwLock.waitAdd, mem_add_items, hn]
  · obtain ⟨r1, h1, rfl, _⟩ := h
    have := primAcquire_trackers h1
    simp [this.1, this.2]
  · obtain ⟨rfl, _⟩ := h
    simp [rwLock.heldAdd, mem_add_items, hn]
  · obtain ⟨rfl, _⟩ := h
    simp [rwLock.waitRemove, mem_remove_items, hn]
  · obtain ⟨r1, h1, rfl, _⟩ := h
    have := primRelease_trackers h1
    simp [this.1, this.2]
  · obtain ⟨rfl, _⟩ := h
    simp [rwLock.heldRemove, mem_remove_items, hn]

/-- A step keeps the trackers in agreement with the program counter of the
participant that moves. -/
theorem stepThread_own {r r' : rwLock} {t t' : Thread}
    (h : stepThread r t = some (r', t'))
    (hw : t.name ∈ r.wait.items ↔ t.pc.inWait = true)
    (hh : t.name ∈ r.held.items ↔ t.pc.inHeld = true) :
    (t.name ∈ r'.wait.items ↔ t'.pc.inWait = true)
    ∧ (t.name ∈ r'.held.items ↔ t'.pc.inHeld = true) := by
  obtain ⟨nm, m, pc⟩ := t
  simp only at hw hh ⊢
  cases pc <;> simp only [stepThread, Option.some.injEq, Prod.mk.injEq, Option.map_eq_some'] at h
  · obtain ⟨rfl, rfl⟩ := h
    simpa [rwLock.waitAdd, mem_add_items, PC.inWait, PC.inHeld] using hh
  · obtain ⟨r1, h1, rfl, rfl⟩ := h
    have := primAcquire_trackers h1
    simpa [this.1, this.2, PC.inWait, PC.inHeld] using And.intro hw hh
  · obtain ⟨rfl, rfl⟩ := h
    simpa [rwLock.heldAdd, mem_add_items, PC.inWait, PC.inHeld] using hw
  · obtain ⟨rfl, rfl⟩ := h
    simpa [rwLock.waitRemove, mem_remove_items, PC.inWait, PC.inHeld] using hh
  · obtain ⟨r1, h1, rfl, rfl⟩ := h
    have := primRelease_trackers h1
    simpa [this.1, this.2, PC.inWait, PC.inHeld] using And.intro hw hh
  · obtain ⟨rfl, rfl⟩ := h
    simpa [rwLock.heldRemove, mem_remove_items, PC.inWait, PC.inHeld] using hw

/-- A step adds to the trackers at most the name of the participant that moves. -/
theorem stepThread_mem {r r' : rwLock} {t t' : Thread} {n : String}
    (h : stepThread r t = some (r', t'))
    (hn : n ∈ r'.wait.items ∨ n ∈ r'.held.items) :
    (n ∈ r.wait.items ∨ n ∈ r.held.items) ∨ n = t.name := by
  by_cases e : n = t.name
  · exact Or.inr e
  · have := stepThread_other h e
    exact Or.inl (hn.imp this.1.mp this.2.mp)

theorem set_of_getElem? {α : Type} {l : List α} {i : Nat} {a : α} (h : l[i]? = some a) :
    l.set i a = l := by
  induction l generalizing i with
  | nil => rfl
  | cons x xs ih =>
    cases i with
    | zero => simp at h; simp [h]
    | succ i => simp at h; simp [ih h]

theorem step_names {s s' : State} {i : Nat} (h : step s i = some s') : s'.names = s.names := by
  obtain ⟨t, r', t', ht, hs, rfl⟩ := step_eq_some h
  have hst := stepThread_static hs
  simp only [State.names, List.map_set, hst.1]
  exact set_of_getElem? (by simp [ht])

theorem names_getElem? {s : State} {i : Nat} {t : Thread} (h : s.threads[i]? = some t) :
    s.names[i]? = some t.name := by
  simp [State.names, h]

theorem tracked_step {s s' : State} {k i : Nat} (hu : UniqueAt s.names i)
    (ht : Tracked s i) (h : step s k = some s') : Tracked s' i := by
  obtain ⟨tk, r', tk', htk, hs, rfl⟩ := step_eq_some h
  intro t hti
  by_cases hki : k = i
  · subst hki
    have hlt : k < s.threads.length := by
      rcases List.getElem?_eq_some.mp htk with ⟨hlt, _⟩; exact hlt
    simp only [List.getElem?_set_self hlt, Option.some.injEq] at hti
    subst hti
    have hst := stepThread_static hs
    have := stepThread_own hs (ht tk htk).1 (ht tk htk).2
    simpa [hst.1] using this
  · simp only [List.getElem?_set_ne hki] at hti
    have hne : t.name ≠ tk.name := by
      intro e
      exact hu k t.name tk.name (names_getElem? hti) (names_getElem? htk) hki e.symm
    have := stepThread_other hs hne
    simp only [this.1, this.2]
    exact ht t hti

theorem owned_step {s s' : State} {k : Nat} (ho : Owned s) (h : step s k = some s') :
    Owned s' := by
  intro n hn
  rw [step_names h]
  obtain ⟨tk, r', tk', htk, hs, rfl⟩ := step_eq_some h
  rcases stepThread_mem hs hn with h1 | h1
  · exact ho n h1
  · subst h1
    exact List.getElem?_mem (names_getElem? htk)

/-- Induction over a schedule. -/
theorem run_induction (P : State → Prop)
    (hstep : ∀ s i s', P s → step s i = some s' → P s') :
    ∀ (sched : List Nat) (s s' : State), P s → run s sched = some s' → P s' := by
  intro sched
  induction sched with
  | nil =>
    intro s s' hp h
    simp only [run, Option.some.injEq] at h
    exact h ▸ hp
  | cons i rest ih =>
    intro s s' hp h
    simp only [run, Option.bind_eq_some] at h
    obtain ⟨s1, h1, h2⟩ := h
    exact ih s1 s' (hstep s i s1 hp h1) h2

theorem init_names (ps : List (String × Mode)) : (init ps).names = ps.map Prod.fst := by
  simp [init, State.names]

theorem run_names {ps : List (String × Mode)} {sched : List Nat} {s : State}
    (h : run (init ps) sched = some s) : s.names = ps.map Prod.fst :=
  run_induction (fun s => s.names = ps.map Prod.fst)
    (fun _ _ _ hp hs => (step_names hs).trans hp) sched _ _ (init_names ps) h

theorem run_tracked {ps : List (String × Mode)} {sched : List Nat} {s : State} {i : Nat}
    (hu : UniqueAt (ps.map Prod.fst) i) (h : run (init ps) sched = some s) : Tracked s i := by
  have key := run_induction (fun s => s.names = ps.map Prod.fst ∧ Tracked s i)
    (fun s k s' hp hs =>
      ⟨(step_names hs).trans hp.1, tracked_step (hp.1 ▸ hu) hp.2 hs⟩) sched _ _
    ⟨init_names ps, ?_⟩ h
  · exact key.2
  · intro t ht
    simp only [init, List.getElem?_map, Option.map_eq_some'] at ht
    obtain ⟨p, _, rfl⟩ := ht
    simp [init, rwLock.new, queue.new, PC.inWait, PC.inHeld]

theorem run_owned {ps : List (String × Mode)} {sched : List Nat} {s : State}
    (h : run (init ps) sched = some s) : Owned s :=
  run_induction Owned (fun _ _ _ hp hs => owned_step hp hs) sched _ _
    (by intro n hn; simp [init, rwLock.new, queue.new] at hn) h

theorem uniqueAt_of_nodup {names : List String} (h : names.Nodup) (i : Nat) :
    UniqueAt names i := by
  intro j n m hi hj hji e
  subst e
  have hlt : j < names.length := by
    rcases List.getElem?_eq_some.mp hj with ⟨hlt, _⟩; exact hlt
  exact hji (List.getElem?_inj hlt h (hj.trans hi.symm))

/-! ## The steps of one participant make up the method calls -/

/-- Four steps of a lone idle participant are one uninterrupted `RLock` or
`Lock` call. -/
theorem run_acquire_call (r : rwLock) (name : String) (md : Mode) :
    run ⟨r, [⟨name, md, PC.idle⟩]⟩ [0, 0, 0, 0]
      = (match md with
          | Mode.shared => r.RLock name
          | Mode.exclusive => r.Lock name).map fun r' => ⟨r', [⟨name, md, PC.holding⟩]⟩ := by
  cases md
  · cases h : (r.waitAdd name).RWMutex.RLock <;>
      simp [run, step, stepThread, rwLock.primAcquire, rwLock.primRLock, rwLock.RLock, h]
  · cases h : (r.waitAdd name).RWMutex.Lock <;>
      simp [run, step, stepThread, rwLock.primAcquire, rwLock.primLock, rwLock.Lock, h]

/-- Two steps of a lone holding participant are one uninterrupted `RUnlock` or
`Unlock` call. -/
theorem run_release_call (r : rwLock) (name : String) (md : Mode) :
    run ⟨r, [⟨name, md, PC.holding⟩]⟩ [0, 0]
      = (match md with
          | Mode.shared => r.RUnlock name
          | Mode.exclusive => r.Unlock name).map fun r' => ⟨r', [⟨name, md, PC.idle⟩]⟩ := by
  cases md
  · cases h : r.RWMutex.RUnlock <;>
      simp [run, step, stepThread, rwLock.primRelease, rwLock.primRUnlock, rwLock.RUnlock, h]
  · cases h : r.RWMutex.Unlock <;>
      simp [run, step, stepThread, rwLock.primRelease, rwLock.primUnlock, rwLock.Unlock, h]

/-! ## The primitive counts its owners -/

theorem count_set_add {l : List (Mode × Bool)} {i : Nat} {a : Mode × Bool} (b x : Mode × Bool)
    (h : l[i]? = some a) :
    (l.set i b).count x + (if a = x then 1 else 0) = l.count x + (if b = x then 1 else 0) := by
  induction l generalizing i with
  | nil => simp at h
  | cons y ys ih =>
    cases i with
    | zero =>
      simp only [List.getElem?_cons_zero, Option.some.injEq] at h
      subst h
      simp only [List.set_cons_zero, List.count_cons, beq_iff_eq]
      omega
    | succ i =>
      simp only [List.getElem?_cons_succ] at h
      have := ih h
      simp only [List.set_cons_succ, List.count_cons]
      omega

theorem mutexInv_step {r r' : rwLock} {t t' : Thread} {v : List (Mode × Bool)} {i : Nat}
    (h : stepThread r t = some (r', t')) (hm : MutexInv r.RWMutex v)
    (hv : v[i]? = some (t.mode, t.pc.holdsPrimitive)) :
    MutexInv r'.RWMutex (v.set i (t'.mode, t'.pc.holdsPrimitive)) := by
  obtain ⟨nm, m, pc⟩ := t
  simp only at hv
  have c1 := fun b => count_set_add b (Mode.shared, true) hv
  have c2 := fun b => count_set_add b (Mode.exclusive, true) hv
  obtain ⟨hA, hB, hC⟩ := hm
  cases pc <;> simp only [stepThread, Option.some.injEq, Prod.mk.injEq, Option.map_eq_some'] at h
  · obtain ⟨rfl, rfl⟩ := h
    rw [show (v.set i (m, PC.requested.holdsPrimitive)) = v from set_of_getElem? hv]
    exact ⟨hA, hB, hC⟩
  · obtain ⟨r1, h1, rfl, rfl⟩ := h
    cases m
    · simp only [rwLock.primAcquire, rwLock.primRLock, RWMutex.RLock, Option.map_eq_some'] at h1
      obtain ⟨m1, hm1, rfl⟩ := h1
      split at hm1
      · simp at hm1
      · rename_i hw
        simp only [Option.some.injEq] at hm1
        subst hm1
        have d1 := c1 (Mode.shared, true)
        have d2 := c2 (Mode.shared, true)
        simp [PC.holdsPrimitive] at d1 d2
        refine ⟨?_, ?_, ?_⟩
        · simp only [PC.holdsPrimitive]; omega
        · simp only [PC.holdsPrimitive]; rw [d2]; exact hB
        · intro hw1; exact absurd hw1 hw
    · simp only [rwLock.primAcquire, rwLock.primLock, RWMutex.Lock, Option.map_eq_some'] at h1
      obtain ⟨m1, hm1, rfl⟩ := h1
      split at hm1
      · simp at hm1
      · rename_i hw
        simp only [Option.some.injEq] at hm1
        subst hm1
        simp only [Bool.or_eq_true, bne_iff_ne, ne_eq, not_or, Bool.not_eq_true,
          Decidable.not_not] at hw
        have d1 := c1 (Mode.exclusive, true)
        have d2 := c2 (Mode.exclusive, true)
        simp [PC.holdsPrimitive] at d1 d2
        simp only [hw.1, Bool.false_eq_true, if_false] at hB
        refine ⟨?_, ?_, ?_⟩
        · simp only [PC.holdsPrimitive]; omega
        · simp only [PC.holdsPrimitive]; simp; omega
        · intro _; exact hw.2
  · obtain ⟨rfl, rfl⟩ := h
    rw [show (v.set i (m, PC.added.holdsPrimitive)) = v from set_of_getElem? hv]
    exact ⟨hA, hB, hC⟩
  · obtain ⟨rfl, rfl⟩ := h
    rw [show (v.set i (m, PC.holding.holdsPrimitive)) = v from set_of_getElem? hv]
    exact ⟨hA, hB, hC⟩
  · obtain ⟨r1, h1, rfl, rfl⟩ := h
    cases m
    · simp only [rwLock.primRelease, rwLock.primRUnlock, RWMutex.RUnlock,
        Option.map_eq_some'] at h1
      obtain ⟨m1, hm1, rfl⟩ := h1
      split at hm1
      · simp at hm1
      · rename_i hr
        simp only [Option.some.injEq] at hm1
        subst hm1
        have d1 := c1 (Mode.shared, false)
        have d2 := c2 (Mode.shared, false)
        simp [PC.holdsPrimitive] at d1 d2
        refine ⟨?_, ?_, ?_⟩
        · simp only [PC.holdsPrimitive]; omega
        · simp only [PC.holdsPrimitive]; rw [d2]; exact hB
        · intro hw1; exact absurd (hC hw1) hr
    · simp only [rwLock.primRelease, rwLock.primUnlock, RWMutex.Unlock,
        Option.map_eq_some'] at h1
      obtain ⟨m1, hm1, rfl⟩ := h1
      split at hm1
      · rename_i hw
        simp only [Option.some.injEq] at hm1
        subst hm1
        have d1 := c1 (Mode.exclusive, false)
        have d2 := c2 (Mode.exclusive, false)
        simp [PC.holdsPrimitive] at d1 d2
        simp only [hw, if_true] at hB
        refine ⟨?_, ?_, ?_⟩
        · simp only [PC.holdsPrimitive]; omega
        · simp only [PC.holdsPrimitive]; simp; omega
        · intro hw1; simp at hw1
      · simp at hm1
  · obtain ⟨rfl, rfl⟩ := h
    rw [show (v.set i (m, PC.idle.holdsPrimitive)) = v from set_of_getElem? hv]
    exact ⟨hA, hB, hC⟩

theorem holders_getElem? {s : State} {i : Nat} {t : Thread} (h : s.threads[i]? = some t) :
    s.holders[i]? = some (t.mode, t.pc.holdsPrimitive) := by
  simp [State.holders, h]

theorem mutexInv_state_step {s s' : State} {k : Nat} (hm : MutexInv s.lock.RWMutex s.holders)
    (h : step s k = some s') : MutexInv s'.lock.RWMutex s'.holders := by
  obtain ⟨tk, r', tk', htk, hs, rfl⟩ := step_eq_some h
  have := mutexInv_step hs hm (holders_getElem? htk)
  simpa [State.holders, List.map_set] using this

theorem run_mutexInv {ps : List (String × Mode)} {sched : List Nat} {s : State}
    (h : run (init ps) sched = some s) : MutexInv s.lock.RWMutex s.holders :=
  run_induction (fun s => MutexInv s.lock.RWMutex s.holders)
    (fun _ _ _ hp hs => mutexInv_state_step hp hs) sched _ _
    (by
      have hz : ∀ md, (init ps).holders.count (md, true) = 0 := by
        intro md
        rw [List.count_eq_zero]
        simp [init, State.holders, PC.holdsPrimitive]
      exact ⟨by rw [hz]; rfl, by rw [hz]; rfl, by simp [init, rwLock.new, RWMutex.new]⟩) h

/-- An owner of the primitive finds it taken in its own mode. -/
theorem heldIn_of_owner {m : RWMutex} {v : List (Mode × Bool)} {i : Nat} {md : Mode}
    (hm : MutexInv m v) (hi : v[i]? = some (md, true)) : m.heldIn md := by
  obtain ⟨hA, hB, _⟩ := hm
  have hpos : 0 < v.count (md, true) := List.count_pos_iff.mpr (List.getElem?_mem hi)
  cases md
  · simp only [RWMutex.heldIn]; omega
  · simp only [RWMutex.heldIn]
    by_cases hw : m.writer = true
    · exact hw
    · rw [if_neg hw] at hB; omega

/-- An exclusive owner of the primitive is its only owner. -/
theorem exclusive_owner_alone {m : RWMutex} {v : List (Mode × Bool)} {i j : Nat} {md : Mode}
    (hm : MutexInv m v) (hij : i ≠ j) (hi : v[i]? = some (Mode.exclusive, true))
    (hj : v[j]? = some (md, true)) : False := by
  have hw : m.writer = true := heldIn_of_owner hm hi
  obtain ⟨hA, hB, hC⟩ := hm
  simp only [hw, if_true] at hB
  have hr := hC hw
  cases md
  · have hpos : 0 < v.count (Mode.shared, true) := List.count_pos_iff.mpr (List.getElem?_mem hj)
    omega
  · have c := count_set_add (Mode.exclusive, false) (Mode.exclusive, true) hi
    simp at c
    have hj' : (v.set i (Mode.exclusive, false))[j]? = some (Mode.exclusive, true) := by
      rw [List.getElem?_set_ne hij]; exact hj
    have hpos : 0 < (v.set i (Mode.exclusive, false)).count (Mode.exclusive, true) :=
      List.count_pos_iff.mpr (List.getElem?_mem hj')
    omega

theorem thread_of_name {s : State} {n : String} (h : n ∈ s.names) :
    ∃ (i : Nat) (t : Thread), s.threads[i]? = some t ∧ t.name = n := by
  obtain ⟨i, hi⟩ := List.mem_iff_getElem?.mp h
  simp only [State.names, List.getElem?_map, Option.map_eq_some'] at hi
  obtain ⟨t, ht, hn⟩ := hi
  exact ⟨i, t, ht, hn⟩

theorem run_tracked_all {ps : List (String × Mode)} {sched : List Nat} {s : State}
    (hnd : (ps.map Prod.fst).Nodup) (h : run (init ps) sched = some s) (i : Nat) :
    Tracked s i :=
  run_tracked (uniqueAt_of_nodup hnd i) h

/-! ## Claims about the interleaved execution -/

/-- C1, as stated, fails: after `wait.add`, the grant and `held.add` of a
single reader, and before its `wait.remove`, `read1` is in both trackers. -/
theorem name_in_both_trackers_counterexample :
    (([("read1", Mode.shared)] : List (String × Mode)).map Prod.fst).Nodup
    ∧ ∃ s, run (init [("read1", Mode.shared)]) [0, 0, 0] = some s
        ∧ "read1" ∈ s.lock.wait.items ∧ "read1" ∈ s.lock.held.items :=
  ⟨by decide, _, rfl, by decide, by decide⟩

/-- C1, amended: with pairwise distinct names, in every reachable state a name
listed in both `wait` and `held` belongs to a participant that has executed
`held.add` and not yet `wait.remove` of its acquire call; the name of a
participant at any other statement is never in both. -/
theorem both_trackers_only_inside_acquire (ps : List (String × Mode)) (sched : List Nat)
    (s : State) (hnd : (ps.map Prod.fst).Nodup) (hrun : run (init ps) sched = some s) :
    (∀ n, n ∈ s.lock.wait.items → n ∈ s.lock.held.items →
        ∃ (i : Nat) (t : Thread), s.threads[i]? = some t ∧ t.name = n ∧ t.pc = PC.added)
    ∧ (∀ (i : Nat) (t : Thread), s.threads[i]? = some t → t.pc ≠ PC.added →
        ¬ (t.name ∈ s.lock.wait.items ∧ t.name ∈ s.lock.held.items)) := by
  have hpc : ∀ (i : Nat) (t : Thread), s.threads[i]? = some t →
      t.name ∈ s.lock.wait.items → t.name ∈ s.lock.held.items → t.pc = PC.added := by
    intro i t ht hw hh
    have htr := run_tracked_all hnd hrun i t ht
    have h1 := htr.1.mp hw
    have h2 := htr.2.mp hh
    cases hp : t.pc <;> simp [hp, PC.inWait, PC.inHeld] at h1 h2 ⊢
  constructor
  · intro n hw hh
    obtain ⟨i, t, ht, rfl⟩ := thread_of_name (run_owned hrun n (Or.inl hw))
    exact ⟨i, t, ht, rfl, hpc i t ht hw hh⟩
  · intro i t ht hne hb
    exact hne (hpc i t ht hb.1 hb.2)

/-- Check of the amended C1 on a reader inside its acquire call next to a
queued writer. -/
theorem both_trackers_only_inside_acquire_witness :
    (∀ n, n ∈ ["read1", "write1"] → n ∈ ["read1"] →
        ∃ (i : Nat) (t : Thread), [Thread.mk "read1" Mode.shared PC.added,
                Thread.mk "write1" Mode.exclusive PC.requested][i]? = some t
          ∧ t.name = n ∧ t.pc = PC.added)
    ∧ (∀ (i : Nat) (t : Thread), [Thread.mk "read1" Mode.shared PC.added,
               Thread.mk "write1" Mode.exclusive PC.requested][i]? = some t →
        t.pc ≠ PC.added → ¬ (t.name ∈ ["read1", "write1"] ∧ t.name ∈ ["read1"])) :=
  both_trackers_only_inside_acquire
    [("read1", Mode.shared), ("write1", Mode.exclusive)] [0, 0, 1, 0]
    ⟨⟨⟨["read1", "write1"]⟩, ⟨["read1"]⟩, ⟨1, false⟩⟩,
      [⟨"read1", Mode.shared, PC.added⟩, ⟨"write1", Mode.exclusive, PC.requested⟩]⟩
    (by decide) (by decide)

/-- C2, as stated, fails: once `read1` has executed `RWMutex.RUnlock` and not
yet `held.remove`, it is listed in `held` although it has released the
primitive, which nobody holds. -/
theorem held_after_release_counterexample :
    (([("read1", Mode.shared)] : List (String × Mode)).map Prod.fst).Nodup
    ∧ ∃ s, run (init [("read1", Mode.shared)]) [0, 0, 0, 0, 0] = some s
        ∧ "read1" ∈ s.lock.held.items
        ∧ s.threads = [⟨"read1", Mode.shared, PC.released⟩]
        ∧ PC.released.holdsPrimitive = false
        ∧ s.lock.RWMutex = RWMutex.new :=
  ⟨by decide, _, rfl, by decide, rfl, rfl, rfl⟩

/-- C2, amended: with pairwise distinct names, in every reachable state every
name listed in `held` belongs to a participant the primitive has granted and
whose release call has not finished: it either still owns the primitive, which
is then taken in its mode, or it has executed the primitive's release and not
yet `held.remove`.  A participant the primitive has not granted, or that has
not yet executed `held.add`, is never listed. -/
theorem held_implies_granted_not_finished (ps : List (String × Mode)) (sched : List Nat)
    (s : State) (hnd : (ps.map Prod.fst).Nodup) (hrun : run (init ps) sched = some s) :
    (∀ n, n ∈ s.lock.held.items →
        ∃ (i : Nat) (t : Thread), s.threads[i]? = some t ∧ t.name = n
          ∧ (t.pc = PC.released
              ∨ (t.pc.holdsPrimitive = true ∧ s.lock.RWMutex.heldIn t.mode)))
    ∧ (∀ (i : Nat) (t : Thread), s.threads[i]? = some t →
        t.pc = PC.idle ∨ t.pc = PC.requested ∨ t.pc = PC.granted →
        t.name ∉ s.lock.held.items) := by
  constructor
  · intro n hh
    obtain ⟨i, t, ht, rfl⟩ := thread_of_name (run_owned hrun n (Or.inr hh))
    refine ⟨i, t, ht, rfl, ?_⟩
    have h2 := (run_tracked_all hnd hrun i t ht).2.mp hh
    by_cases hr : t.pc = PC.released
    · exact Or.inl hr
    · have hp : t.pc.holdsPrimitive = true := by
        cases hpc : t.pc <;> simp [hpc, PC.inHeld, PC.holdsPrimitive] at h2 hr ⊢
      have hv := holders_getElem? ht
      rw [hp] at hv
      exact Or.inr ⟨hp, heldIn_of_owner (run_mutexInv hrun) hv⟩
  · intro i t ht hpc hh
    have h2 := (run_tracked_all hnd hrun i t ht).2.mp hh
    rcases hpc with hpc | hpc | hpc <;> simp [hpc, PC.inHeld] at h2

/-- Check of the amended C2 on two readers, one holding and one that has given
the primitive back and is about to execute `held.remove`. -/
theorem held_implies_granted_not_finished_witness :
    (∀ n, n ∈ ["read1", "read2"] →
        ∃ (i : Nat) (t : Thread), [Thread.mk "read1" Mode.shared PC.released,
                Thread.mk "read2" Mode.shared PC.holding][i]? = some t ∧ t.name = n
          ∧ (t.pc = PC.released
              ∨ (t.pc.holdsPrimitive = true ∧ (RWMutex.mk 1 false).heldIn t.mode)))
    ∧ (∀ (i : Nat) (t : Thread), [Thread.mk "read1" Mode.shared PC.released,
               Thread.mk "read2" Mode.shared PC.holding][i]? = some t →
        t.pc = PC.idle ∨ t.pc = PC.requested ∨ t.pc = PC.granted →
        t.name ∉ ["read1", "read2"]) :=
  held_implies_granted_not_finished
    [("read1", Mode.shared), ("read2", Mode.shared)] [0, 0, 0, 0, 1, 1, 1, 1, 0]
    ⟨⟨⟨[]⟩, ⟨["read1", "read2"]⟩, ⟨1, false⟩⟩,
      [⟨"read1", Mode.shared, PC.released⟩, ⟨"read2", Mode.shared, PC.holding⟩]⟩
    (by decide) (by decide)

/-- C3, as stated, fails: `write1` holds exclusively while `read1` waits;
`write1` executes `RWMutex.Unlock`, the primitive grants `read1`, which executes
`held.add` before `write1` executes `held.remove`: `held` lists the exclusive
name `write1` next to `read1`. -/
theorem exclusive_listed_with_other_counterexample :
    (([("write1", Mode.exclusive), ("read1", Mode.shared)] : List (String × Mode)).map
        Prod.fst).Nodup
    ∧ ∃ s, run (init [("write1", Mode.exclusive), ("read1", Mode.shared)])
          [0, 0, 0, 0, 1, 0, 1, 1] = some s
        ∧ s.lock.held.items = ["write1", "read1"] :=
  ⟨by decide, _, rfl, rfl⟩

/-- C3, amended: with pairwise distinct names, in every reachable state, if
`held` lists the name of an exclusive participant together with another name,
then one of the two participants has already executed the primitive's release
and not yet its `held.remove`; two participants that both still own the
primitive are never listed together when one of them is exclusive. -/
theorem exclusive_listed_with_other_only_stale (ps : List (String × Mode))
    (sched : List Nat) (s : State) (hnd : (ps.map Prod.fst).Nodup)
    (hrun : run (init ps) sched = some s) :
    ∀ (i : Nat) (ti : Thread), s.threads[i]? = some ti → ti.mode = Mode.exclusive →
      ti.name ∈ s.lock.held.items →
      ∀ n, n ∈ s.lock.held.items → n ≠ ti.name →
        ti.pc = PC.released
        ∨ ∃ (j : Nat) (tj : Thread), s.threads[j]? = some tj ∧ tj.name = n ∧ tj.pc = PC.released := by
  intro i ti hti hmode hhi n hhn hne
  obtain ⟨j, tj, htj, rfl⟩ := thread_of_name (run_owned hrun n (Or.inr hhn))
  have hij : i ≠ j := by
    intro e
    subst e
    rw [hti] at htj
    exact hne (by cases htj; rfl)
  have hi2 := (run_tracked_all hnd hrun i ti hti).2.mp hhi
  have hj2 := (run_tracked_all hnd hrun j tj htj).2.mp hhn
  by_cases hri : ti.pc = PC.released
  · exact Or.inl hri
  by_cases hrj : tj.pc = PC.released
  · exact Or.inr ⟨j, tj, htj, rfl, hrj⟩
  exfalso
  have hpi : ti.pc.holdsPrimitive = true := by
    cases hpc : ti.pc <;> simp [hpc, PC.inHeld, PC.holdsPrimitive] at hi2 hri ⊢
  have hpj : tj.pc.holdsPrimitive = true := by
    cases hpc : tj.pc <;> simp [hpc, PC.inHeld, PC.holdsPrimitive] at hj2 hrj ⊢
  have hvi := holders_getElem? hti
  have hvj := holders_getElem? htj
  rw [hpi, hmode] at hvi
  rw [hpj] at hvj
  exact exclusive_owner_alone (run_mutexInv hrun) hij hvi hvj

/-- Check of the amended C3 where the exclusive participant owns the primitive:
`read1` has executed `RWMutex.RUnlock`, the primitive has granted `write1`, and
`write1` has executed `held.add` before `read1` executes `held.remove`. -/
theorem exclusive_listed_with_other_only_stale_witness :
    run (init [("write1", Mode.exclusive), ("read1", Mode.shared)]) [1, 1, 1, 1, 0, 1, 0, 0]
      = some ⟨⟨⟨["write1"]⟩, ⟨["read1", "write1"]⟩, ⟨0, true⟩⟩,
          [⟨"write1", Mode.exclusive, PC.added⟩, ⟨"read1", Mode.shared, PC.released⟩]⟩
    ∧ (PC.added = PC.released
        ∨ ∃ (j : Nat) (tj : Thread),
            [Thread.mk "write1" Mode.exclusive PC.added,
             Thread.mk "read1" Mode.shared PC.released][j]? = some tj
            ∧ tj.name = "read1" ∧ tj.pc = PC.released) :=
  ⟨by decide,
   exclusive_listed_with_other_only_stale
    [("write1", Mode.exclusive), ("read1", Mode.shared)] [1, 1, 1, 1, 0, 1, 0, 0]
    ⟨⟨⟨["write1"]⟩, ⟨["read1", "write1"]⟩, ⟨0, true⟩⟩,
      [⟨"write1", Mode.exclusive, PC.added⟩, ⟨"read1", Mode.shared, PC.released⟩]⟩
    (by decide) (by decide) 0 ⟨"write1", Mode.exclusive, PC.added⟩ rfl rfl (by decide)
    "read1" (by decide) (by decide)⟩

/-- C4, as stated, fails: `read1` is the only participant.  The observer reads
`holding()` when `read1` has executed `wait.add` and waits for the primitive,
and reads `waiting()` after `read1` has been granted and has executed
`held.add` and `wait.remove`.  The request is in flight at both reads and both
snapshots are empty. -/
theorem observer_misses_inflight_name_counterexample :
    ∃ s0 s1 : State,
      run (init [("read1", Mode.shared)]) [0] = some s0
      ∧ prompt s0 [0, 0, 0] = some ("", "", s1)
      ∧ s0.threads = [⟨"read1", Mode.shared, PC.requested⟩]
      ∧ s1.threads = [⟨"read1", Mode.shared, PC.holding⟩]
      ∧ PC.requested.inFlight = true
      ∧ PC.holding.inFlight = true :=
  ⟨_, _, rfl, rfl, rfl, rfl, rfl, rfl⟩

/-- C4, amended: for a participant whose name no other participant uses, in
every reachable state from the first statement of its acquire call
(`wait.add`) to the start of its matching release, its name is listed in `wait`
or in `held`; an observer whose two reads meet that same state, with no
participant step between `holding()` and `waiting()`, gets the renderings of
those two sequences and so finds the name in at least one of them. -/
theorem inflight_name_listed (ps : List (String × Mode)) (sched : List Nat) (s : State)
    (i : Nat) (n : String) (md : Mode) (hi : ps[i]? = some (n, md))
    (hu : ∀ j p, ps[j]? = some p → j ≠ i → p.1 ≠ n)
    (hrun : run (init ps) sched = some s) :
    ∃ t : Thread, s.threads[i]? = some t ∧ t.name = n
      ∧ (t.pc.inFlight = true → n ∈ s.lock.wait.items ∨ n ∈ s.lock.held.items)
      ∧ prompt s []
          = some (stringsJoin s.lock.held.items ", ", stringsJoin s.lock.wait.items ", ", s) := by
  have hnames := run_names hrun
  have hni : s.names[i]? = some n := by simp [hnames, hi]
  simp only [State.names, List.getElem?_map, Option.map_eq_some'] at hni
  obtain ⟨t, ht, rfl⟩ := hni
  refine ⟨t, ht, rfl, ?_, rfl⟩
  have hua : UniqueAt (ps.map Prod.fst) i := by
    intro j n' m' h1 h2 hji
    simp only [List.getElem?_map, Option.map_eq_some'] at h1 h2
    obtain ⟨p1, hp1, rfl⟩ := h1
    obtain ⟨p2, hp2, rfl⟩ := h2
    rw [hi] at hp1
    cases hp1
    exact hu j p2 hp2 hji
  have htr := run_tracked hua hrun t ht
  intro hf
  cases hpc : t.pc <;> simp [hpc, PC.inFlight] at hf
  · exact Or.inl (htr.1.mpr (by simp [hpc, PC.inWait]))
  · exact Or.inl (htr.1.mpr (by simp [hpc, PC.inWait]))
  · exact Or.inl (htr.1.mpr (by simp [hpc, PC.inWait]))
  · exact Or.inr (htr.2.mpr (by simp [hpc, PC.inHeld]))

/-- Check of the amended C4 on reader `read1`, whose name is its own, next to
two writers that share the name `w` and whose steps are interleaved with its
acquire: the observer reads `read1` as holding and `w, w` as waiting. -/
theorem inflight_name_listed_witness :
    ∃ t : Thread,
      [Thread.mk "read1" Mode.shared PC.holding, Thread.mk "w" Mode.exclusive PC.requested,
        Thread.mk "w" Mode.exclusive PC.requested][0]? = some t ∧ t.name = "read1"
      ∧ (t.pc.inFlight = true → "read1" ∈ ["w", "w"] ∨ "read1" ∈ ["read1"])
      ∧ prompt
          ⟨⟨⟨["w", "w"]⟩, ⟨["read1"]⟩, ⟨1, false⟩⟩,
            [⟨"read1", Mode.shared, PC.holding⟩, ⟨"w", Mode.exclusive, PC.requested⟩,
             ⟨"w", Mode.exclusive, PC.requested⟩]⟩ []
          = some ("read1", "w, w",
              ⟨⟨⟨["w", "w"]⟩, ⟨["read1"]⟩, ⟨1, false⟩⟩,
                [⟨"read1", Mode.shared, PC.holding⟩, ⟨"w", Mode.exclusive, PC.requested⟩,
                 ⟨"w", Mode.exclusive, PC.requested⟩]⟩) :=
  inflight_name_listed
    [("read1", Mode.shared), ("w", Mode.exclusive), ("w", Mode.exclusive)] [0, 1, 0, 2, 0, 0]
    ⟨⟨⟨["w", "w"]⟩, ⟨["read1"]⟩, ⟨1, false⟩⟩,
      [⟨"read1", Mode.shared, PC.holding⟩, ⟨"w", Mode.exclusive, PC.requested⟩,
       ⟨"w", Mode.exclusive, PC.requested⟩]⟩
    0 "read1" Mode.shared rfl
    (by
      intro j p hp hj
      match j, hj with
      | 1, _ => simp at hp; subst hp; decide
      | 2, _ => simp at hp; subst hp; decide
      | (k + 3), _ => simp at hp)
    (by decide)

end RWLocks
